import Mathlib

/-
Verification of the utility module `epydoc/util.py`.

Python strings are modelled as `List Char`; machine-independent text
operations are translated directly from the source.  Filesystem state,
process execution and terminal probing are external to the program and are
modelled as explicit parameters (a record of total query functions for the
filesystem, an outcome value for a spawned process, an abstract probing
function for the terminal); fallible Python functions return `Except`.
-/

/-- Characters of a string literal, used to write `List Char` constants. -/
def sL (s : String) : List Char := s.data

/-- Whitespace for Python's `str.rstrip()` / `str.split()` / `str.isspace()`:
the ASCII whitespace characters together with the Unicode whitespace code
points recognised by CPython. -/
def pyIsSpace (c : Char) : Bool :=
  c == ' ' || c == '\t' || c == '\n' || c == '\x0b' || c == '\x0c' || c == '\r' ||
  c == '\x1c' || c == '\x1d' || c == '\x1e' || c == '\x1f' || c == '\x85' || c == '\xa0' ||
  c.toNat = 0x1680 || (0x2000 ≤ c.toNat && c.toNat ≤ 0x200a) ||
  c.toNat = 0x2028 || c.toNat = 0x2029 || c.toNat = 0x202f || c.toNat = 0x205f ||
  c.toNat = 0x3000

/-- Python `s.rstrip()`: remove trailing whitespace. -/
def pyRstrip (l : List Char) : List Char := (l.reverse.dropWhile pyIsSpace).reverse

/-- Python `str.expandtabs()` with the default tab size 8: each tab becomes
the number of spaces needed to reach the next multiple of 8 of the current
column; the column resets after a newline or carriage return. -/
def expandtabsAux : List Char → Nat → List Char
  | [], _ => []
  | c :: cs, col =>
    if c = '\t' then
      List.replicate (8 - col % 8) ' ' ++ expandtabsAux cs (col + (8 - col % 8))
    else if c = '\n' ∨ c = '\r' then c :: expandtabsAux cs 0
    else c :: expandtabsAux cs (col + 1)

/-- Python `str.expandtabs()` starting at column 0. -/
def expandtabs (l : List Char) : List Char := expandtabsAux l 0

/-- Helper for `splitWs`: account for a space character in front of an
already-split tail, extending a maximal space run (the regex ` +` is greedy,
so adjacent spaces form a single separator token). -/
def spaceMerge (r : List (List Char)) : List (List Char) :=
  match r with
  | [] :: (c :: sep) :: t =>
    if c = ' ' then [] :: (' ' :: c :: sep) :: t
    else [] :: [' '] :: ([] :: (c :: sep) :: t)
  | _ => [] :: [' '] :: r

/-- Helper: extend the first (non-separator) token with a character. -/
def consTok (c : Char) : List (List Char) → List (List Char)
  | h :: t => (c :: h) :: t
  | [] => [[c]]

/-- Python `re.split(r'( +|\n)', s)` (the `splitchars=''` case of `wordwrap`,
the default used by every claim): the resulting token list alternates
non-separator parts (possibly empty) and captured separators, each separator
being a maximal run of spaces or a single newline. -/
def splitWs : List Char → List (List Char)
  | [] => [[]]
  | c :: cs =>
    if c = '\n' then [] :: ['\n'] :: splitWs cs
    else if c = ' ' then spaceMerge (splitWs cs)
    else consTok c (splitWs cs)

/-- Python `chunk[:1] not in ('\n', ' ')`. -/
def headNotWs : List Char → Bool
  | [] => true
  | c :: _ => !(c == '\n' || c == ' ')

/-- The chunk loop of `wordwrap` (util.py lines 152-161): break the line when
appending the chunk would pass the right margin (and the column is positive)
or the chunk is a literal newline; a breaking chunk is re-emitted after the
break only when it does not start with whitespace. -/
def wwLoop (indent right : Nat) : List (List Char) → Nat → List Char
  | [], _ => []
  | chunk :: rest, charindex =>
    if (right < charindex + chunk.length ∧ 0 < charindex) ∨ chunk = ['\n'] then
      '\n' :: (List.replicate indent ' ' ++
        (if headNotWs chunk then chunk ++ wwLoop indent right rest (indent + chunk.length)
         else wwLoop indent right rest indent))
    else chunk ++ wwLoop indent right rest (charindex + chunk.length)

/-- Model of `wordwrap(str, indent, right, startindex)` from util.py lines 120-162,
for the default `splitchars=''`.  The parameters are the (non-negative)
margins; `' '*(indent-startindex)` matches Python because `Nat` subtraction
truncates at zero exactly as `' '*n` yields `''` for negative `n`. -/
def wordwrap (s : List Char) (indent right startindex : Nat) : List Char :=
  pyRstrip (List.replicate (indent - startindex) ' ' ++
    wwLoop indent right (splitWs (expandtabs s)) (max indent startindex)) ++ ['\n']

/-- The lines of a string: split on `'\n'` (boundaries kept implicit; a
trailing newline yields a final empty line). -/
def linesOf : List Char → List (List Char)
  | [] => [[]]
  | c :: cs =>
    if c = '\n' then [] :: linesOf cs
    else consTok c (linesOf cs)

/-- Model of `isPre a b` holds when `a` is an initial segment of `b`. -/
def isPre : List Char → List Char → Bool
  | [], _ => true
  | _ :: _, [] => false
  | a :: l, b :: m => a == b && isPre l m

/-- Index of the last occurrence of `c` in `l` (Python `str.rfind`, with
`none` for "not found"). -/
def lastIdxAux (c : Char) : List Char → Nat → Option Nat
  | [], _ => none
  | x :: xs, i =>
    match lastIdxAux c xs (i + 1) with
    | some j => some j
    | none => if x = c then some i else none

/-- Index of the last occurrence of `c` in `l`. -/
def lastIdx (c : Char) (l : List Char) : Option Nat := lastIdxAux c l 0

/-- Model of `os.path.splitext` (posix, `sep='/'`, `extsep='.'`): split at the last
dot that comes after the last slash, unless every character between the
start of the base name and that dot is itself a dot (so `'.py'` has no
extension). -/
def splitext (p : List Char) : List Char × List Char :=
  match lastIdx '.' p with
  | none => (p, [])
  | some d =>
    match lastIdx '/' p with
    | none =>
      if (p.take d).any (fun c => !(c == '.')) then (p.take d, p.drop d) else (p, [])
    | some s =>
      if s < d ∧ ((p.take d).drop (s + 1)).any (fun c => !(c == '.')) then
        (p.take d, p.drop d)
      else (p, [])

/-- Strip trailing `'/'` characters (Python `head.rstrip('/')`). -/
def rstripSlash (l : List Char) : List Char :=
  (l.reverse.dropWhile (fun c => c == '/')).reverse

/-- Model of `os.path.split` (posix): split after the last slash; the head keeps its
trailing slashes only when it consists of slashes alone. -/
def pathSplit (p : List Char) : List Char × List Char :=
  let i := match lastIdx '/' p with | some j => j + 1 | none => 0
  let head := p.take i
  let tail := p.drop i
  (if head.any (fun c => !(c == '/')) then rstripSlash head else head, tail)

/-- Model of `os.path.join(a, b)` (posix, two arguments). -/
def pathJoin (a b : List Char) : List Char :=
  match b with
  | '/' :: _ => b
  | _ =>
    match a.getLast? with
    | none => b
    | some c => if c = '/' then a ++ b else a ++ '/' :: b

/-- Python regex `\w` restricted to ASCII (the identifiers, extensions and
capability names in this module are ASCII). -/
def isWordChar (c : Char) : Bool := c.isAlphanum || c == '_'

/-- Python `re.match(pat + '$', s)` ends either at the end of the string or
just before one final newline; this strips that optional final newline. -/
def dropFinalNl (l : List Char) : List Char :=
  if l.getLast? = some '\n' then l.dropLast else l

/-- Model of `re.match('[a-zA-Z_]\w*$', basename)` viewed as a Boolean. -/
def identMatch (l : List Char) : Bool :=
  match dropFinalNl l with
  | [] => false
  | c :: rest => (c.isAlpha || c == '_') && rest.all isWordChar

/-- Model of `re.match(r"\w+(\.\w+)*$", name)` viewed as a Boolean: one or more
word-character groups separated by single dots. -/
def pynameMatch (l : List Char) : Bool :=
  let parts := (dropFinalNl l).splitOn '.'
  !parts.isEmpty && parts.all (fun p => !p.isEmpty && p.all isWordChar)

/-- A Python value passed to a classification predicate: a string or some
non-string value (the predicates only test `isinstance(x, str)`). -/
inductive PyVal where
  | str (s : List Char)
  | int (n : Int)
  | pynone
deriving DecidableEq

/-- Python exceptions raised by this module. -/
inductive PyErr where
  | typeError
  | valueError (msg : List Char)
  | osError (errno : Nat)
  | runSubprocessError (msg out err : List Char)
  | attributeError
deriving DecidableEq

/-- Whether an `Except` result is a normal return (no exception). -/
def isOkE {α : Type} : Except PyErr α → Bool
  | .ok _ => true
  | .error _ => false

instance {ε α : Type} [DecidableEq ε] [DecidableEq α] : DecidableEq (Except ε α) := fun x y =>
  match x, y with
  | .ok a, .ok b =>
    if h : a = b then .isTrue (by rw [h]) else .isFalse (fun he => h (Except.ok.inj he))
  | .error a, .error b =>
    if h : a = b then .isTrue (by rw [h]) else .isFalse (fun he => h (Except.error.inj he))
  | .ok _, .error _ => .isFalse (fun he => Except.noConfusion he)
  | .error _, .ok _ => .isFalse (fun he => Except.noConfusion he)

/-- The filesystem as seen through `os.path` / `os.listdir`.  All queries
are total functions: Python's `os.path.isfile`/`isdir`/`exists` swallow
OS errors and return `False`, `os.path.abspath` is pure string rewriting
against the process working directory, and `os.listdir` is consulted only
for a directory that `isdir` accepted (the model is race-free, matching the
spec's synchronous single-threaded resource model). -/
structure FS where
  isfile : List Char → Bool
  isdir : List Char → Bool
  pathexists : List Char → Bool
  listdir : List Char → List (List Char)
  abspath : List Char → List Char

/-- Model of `PY_SRC_EXTENSIONS = ['.py', '.pyw']` (util.py line 31). -/
def PY_SRC_EXTENSIONS : List (List Char) := [sL ".py", sL ".pyw"]

/-- Model of `PY_BIN_EXTENSIONS = ['.pyc', '.so', '.pyd']` (util.py line 32). -/
def PY_BIN_EXTENSIONS : List (List Char) := [sL ".pyc", sL ".so", sL ".pyd"]

/-- Body of `is_module_file` on an actual string (util.py lines 38-42). -/
def is_module_file_str (fs : FS) (path : List Char) : Bool :=
  let filename := (pathSplit path).2
  let basename := (splitext filename).1
  let extension := (splitext filename).2
  fs.isfile path && identMatch basename &&
    (PY_SRC_EXTENSIONS ++ PY_BIN_EXTENSIONS).contains extension

/-- Model of `is_module_file(path)` (util.py lines 34-42): non-strings are rejected
by the `isinstance` guard; no operation on the string path can raise. -/
def is_module_file (fs : FS) (v : PyVal) : Except PyErr Bool :=
  match v with
  | .str path => .ok (is_module_file_str fs path)
  | _ => .ok false

/-- Model of `is_src_filename(filename)` (util.py lines 44-47). -/
def is_src_filename (fs : FS) (v : PyVal) : Except PyErr Bool :=
  match v with
  | .str filename =>
    if !fs.pathexists filename then .ok false
    else .ok (PY_SRC_EXTENSIONS.contains (splitext filename).2)
  | _ => .ok false

/-- Model of `is_package_dir(dirname)` (util.py lines 49-76).  The `(parent, dir)`
computation of lines 63-64 feeds only the identifier check that was removed
(sourceforge bug #1787028), so it is not reproduced; the directory listing
is searched for an `__init__.*` entry that is a module file. -/
def is_package_dir (fs : FS) (v : PyVal) : Except PyErr Bool :=
  match v with
  | .str dirname =>
    if !fs.isdir dirname then .ok false
    else
      let dirname' := fs.abspath dirname
      .ok ((fs.listdir dirname').any (fun name =>
        isPre (sL "__init__.") name && is_module_file_str fs (pathJoin dirname' name)))
  | _ => .ok false

/-- Model of `is_pyname(name)` (util.py lines 78-79): `re.match` is applied with no
`isinstance` guard, so a non-string argument raises `TypeError`. -/
def is_pyname (v : PyVal) : Except PyErr Bool :=
  match v with
  | .str name => .ok (pynameMatch name)
  | _ => .error .typeError

/-- The message of the `ValueError` raised by `py_src_filename` (util.py
lines 90-91); `%r` wraps the filename in quotes. -/
def srcNotFoundMsg (filename : List Char) : List Char :=
  sL "Could not find a corresponding Python source file for " ++ ['\x27'] ++
    filename ++ ['\x27'] ++ sL "."

/-- Model of `py_src_filename(filename)` (util.py lines 81-91): a name that already
has a source extension is returned as is; otherwise the source extensions
are tried in order against the filesystem and exhaustion raises
`ValueError`. -/
def py_src_filename (fs : FS) (filename : List Char) : Except PyErr (List Char) :=
  let basefile := (splitext filename).1
  let extension := (splitext filename).2
  if PY_SRC_EXTENSIONS.contains extension then .ok filename
  else if fs.isfile (basefile ++ sL ".py") then .ok (basefile ++ sL ".py")
  else if fs.isfile (basefile ++ sL ".pyw") then .ok (basefile ++ sL ".pyw")
  else .error (.valueError (srcNotFoundMsg filename))

/-- Python `str.split()` with no argument: maximal runs of non-whitespace,
empty pieces discarded. -/
def pySplitAux : List Char → List Char → List (List Char)
  | [], acc => if acc.isEmpty then [] else [acc.reverse]
  | c :: cs, acc =>
    if pyIsSpace c then
      if acc.isEmpty then pySplitAux cs [] else acc.reverse :: pySplitAux cs []
    else pySplitAux cs (c :: acc)

/-- Python `str.split()` with no argument. -/
def pySplit (l : List Char) : List (List Char) := pySplitAux l []

/-- The `cmd` argument of `run_subprocess`: a string or a list of strings. -/
inductive PyCmd where
  | ofString (s : List Char)
  | ofList (l : List (List Char))

/-- Model of `if isinstance(cmd, basestring): cmd = cmd.split()` (util.py 233-234). -/
def cmdAsList : PyCmd → List (List Char)
  | .ofString s => pySplit s
  | .ofList l => l

/-- Outcome of `subprocess.Popen` + `communicate`, the external part of
`run_subprocess`: either `Popen` itself raised (command missing or not
executable — an `OSError` identified here by its errno), or a child process
ran to completion with a return code and captured output streams. -/
inductive SubprocessOutcome where
  | startFailure (errno : Nat)
  | started (returncode : Int) (out err : List Char)

/-- Model of `run_subprocess(cmd, data)` (util.py lines 221-254) on a modern runtime,
where `from subprocess import Popen, PIPE` succeeds and `Popen` objects
always have `returncode` (so the Python ≤ 2.3 `popen2`/`os.popen3` branches
at lines 256-295 are dead).  A `Popen` failure is raised inside the `try`
block but only `ImportError` is caught, so it propagates to the caller as
the original `OSError`, not as `RunSubprocessError`; `communicate` itself
suppresses broken-pipe errors when feeding `data`, so the child's outcome
alone decides the result. -/
def run_subprocess (cmd : PyCmd) (data : Option (List Char))
    (world : SubprocessOutcome) : Except PyErr (List Char × List Char) :=
  match world with
  | .startFailure e => .error (.osError e)
  | .started rc out err =>
    if rc = 0 then .ok (out, err)
    else .error (.runSubprocessError ((cmdAsList cmd).headD [] ++ sL " failed") out err)

/-- The string-capability and numeric attributes of `TerminalController`
(util.py lines 308-320); every string capability defaults to the empty
string and `COLS` defaults to 75. -/
structure TerminalController where
  BOL : List Char
  UP : List Char
  DOWN : List Char
  LEFT : List Char
  RIGHT : List Char
  CLEAR_EOL : List Char
  CLEAR_LINE : List Char
  BOLD : List Char
  NORMAL : List Char
  UNDERLINE : List Char
  REVERSE : List Char
  COLS : Nat
  BLACK : List Char
  BLUE : List Char
  GREEN : List Char
  CYAN : List Char
  RED : List Char
  MAGENTA : List Char
  YELLOW : List Char
  WHITE : List Char

/-- The class-level defaults of `TerminalController`. -/
def classDefault : TerminalController :=
  ⟨[], [], [], [], [], [], [], [], [], [], [], 75, [], [], [], [], [], [], [], []⟩

/-- Model of `TerminalController.__init__(term_stream)` (util.py lines 333-369): a
non-tty stream returns at once, leaving every class default in place, as
does `FORCE_SIMPLE_TERM`; otherwise the capabilities are probed through
curses.  The probing (curses import, `setupterm`, `tigetstr`, `tparm`) is
external terminal state, modelled as an abstract update `probe` applied to
the defaults only on the interactive path. -/
def mkTerminalController (isatty forceSimple : Bool)
    (probe : TerminalController → TerminalController) : TerminalController :=
  if isatty = false then classDefault
  else if forceSimple = true then classDefault
  else probe classDefault

/-- Result of `getattr(self, name)` on a `TerminalController` followed by
use as a `re.sub` replacement: a string attribute substitutes its value, a
non-string attribute makes `re.sub` raise `TypeError`, a missing attribute
raises `AttributeError`. -/
inductive CapResult where
  | strval (v : List Char)
  | nonstr
  | missing
deriving DecidableEq

/-- The class docstring of `TerminalController` (util.py lines 302-307),
the string value of its `__doc__` attribute. -/
def TCdoc : List Char :=
  sL "\n    A class that can be used to portably generate formatted output to\n    a terminal.  See\n    U\x7bhttp://aspn.activestate.com/ASPN/Cookbook/Python/Recipe/475116\x7d\n    for documentation.  (This is a somewhat stripped-down version.)\n    "

/-- Model of `getattr(self, s[2:-1])` (util.py line 402).  The attributes
statically visible in the class resolve directly: the nineteen string
capabilities to their stored values; `__doc__` to the class docstring and
`__module__` to the module name (both strings, so they are substituted, not
raised); and the non-string attributes (`COLS`, `FORCE_SIMPLE_TERM`, the
three class-level lists and the methods, `__init__` included) to values
that make `re.sub` raise `TypeError`.  Every other name is resolved by the
Python runtime object model (further inherited double-underscore
attributes, whose exact set depends on the interpreter version), modelled
by the environment parameter `objAttrs`; a name absent there raises
`AttributeError`. -/
def getCapR (tc : TerminalController) (objAttrs : List Char → CapResult)
    (name : List Char) : CapResult :=
  if name = sL "BOL" then .strval tc.BOL
  else if name = sL "UP" then .strval tc.UP
  else if name = sL "DOWN" then .strval tc.DOWN
  else if name = sL "LEFT" then .strval tc.LEFT
  else if name = sL "RIGHT" then .strval tc.RIGHT
  else if name = sL "CLEAR_EOL" then .strval tc.CLEAR_EOL
  else if name = sL "CLEAR_LINE" then .strval tc.CLEAR_LINE
  else if name = sL "BOLD" then .strval tc.BOLD
  else if name = sL "NORMAL" then .strval tc.NORMAL
  else if name = sL "UNDERLINE" then .strval tc.UNDERLINE
  else if name = sL "REVERSE" then .strval tc.REVERSE
  else if name = sL "BLACK" then .strval tc.BLACK
  else if name = sL "BLUE" then .strval tc.BLUE
  else if name = sL "GREEN" then .strval tc.GREEN
  else if name = sL "CYAN" then .strval tc.CYAN
  else if name = sL "RED" then .strval tc.RED
  else if name = sL "MAGENTA" then .strval tc.MAGENTA
  else if name = sL "YELLOW" then .strval tc.YELLOW
  else if name = sL "WHITE" then .strval tc.WHITE
  else if name = sL "__doc__" then .strval TCdoc
  else if name = sL "__module__" then .strval (sL "epydoc.util")
  else if name = sL "COLS" ∨ name = sL "FORCE_SIMPLE_TERM" ∨
          name = sL "_STRING_CAPABILITIES" ∨ name = sL "_COLORS" ∨
          name = sL "_ANSICOLORS" ∨ name = sL "render" ∨
          name = sL "_render_sub" ∨ name = sL "_tigetstr" ∨
          name = sL "_tparm" ∨ name = sL "__init__" then .nonstr
  else objAttrs name

/-- An object-model environment contributing no further attributes; used
for concrete evaluations whose looked-up names are either class attributes
or (like `FOO`) not attributes under any interpreter. -/
def noInheritedAttrs : List Char → CapResult := fun _ => CapResult.missing

/-- Literal brace characters, written as escapes. -/
def lbrace : Char := '\x7b'

/-- Literal closing brace. -/
def rbrace : Char := '\x7d'

/-- Scanner state for `render`: outside any pattern, after a `'$'`, or
inside `'${'` with the accumulated (reversed) name characters. -/
inductive RState where
  | plain
  | dollar
  | name (acc : List Char)

/-- The left-to-right scan of `re.sub(r'\$\$|\${\w+}', self._render_sub,
template)` with the `_render_sub` callback of util.py lines 399-402: a
matched `'$$'` is replaced by the callback's return value `s`, which is
`'$$'` itself (the match, unchanged); a matched `'${NAME}'` is replaced by
`getattr(self, 'NAME')`; where neither alternative matches, the character
is copied and scanning resumes at the next position. -/
def renderAux (tc : TerminalController) (objAttrs : List Char → CapResult) :
    RState → List Char → Except PyErr (List Char)
  | .plain, [] => .ok []
  | .plain, c :: cs =>
    if c = '$' then renderAux tc objAttrs .dollar cs
    else (c :: ·) <$> renderAux tc objAttrs .plain cs
  | .dollar, [] => .ok ['$']
  | .dollar, c :: cs =>
    if c = '$' then (fun r => '$' :: '$' :: r) <$> renderAux tc objAttrs .plain cs
    else if c = lbrace then renderAux tc objAttrs (.name []) cs
    else (fun r => '$' :: c :: r) <$> renderAux tc objAttrs .plain cs
  | .name acc, [] => .ok ('$' :: lbrace :: acc.reverse)
  | .name acc, c :: cs =>
    if c = rbrace then
      if acc.isEmpty then
        (fun r => '$' :: lbrace :: rbrace :: r) <$> renderAux tc objAttrs .plain cs
      else
        match getCapR tc objAttrs acc.reverse with
        | .strval v => (v ++ ·) <$> renderAux tc objAttrs .plain cs
        | .nonstr => .error .typeError
        | .missing => .error .attributeError
    else if isWordChar c then renderAux tc objAttrs (.name (c :: acc)) cs
    else if c = '$' then
      (fun r => '$' :: lbrace :: (acc.reverse ++ r)) <$> renderAux tc objAttrs .dollar cs
    else
      (fun r => '$' :: lbrace :: (acc.reverse ++ c :: r)) <$> renderAux tc objAttrs .plain cs

/-- Model of `TerminalController.render(template)` (util.py lines 391-397). -/
def render (tc : TerminalController) (objAttrs : List Char → CapResult)
    (template : List Char) : Except PyErr (List Char) :=
  renderAux tc objAttrs .plain template

/-- One replacement pass of Python `str.replace(target, repl)` for a
single-character target. -/
def replaceAll (target : Char) (repl : List Char) : List Char → List Char
  | [] => []
  | c :: cs =>
    if c = target then repl ++ replaceAll target repl cs
    else c :: replaceAll target repl cs

/-- Model of `plaintext_to_html(s)` (util.py lines 164-173): replace `&` first, then
`"`, then `<`, then `>`. -/
def plaintext_to_html (s : List Char) : List Char :=
  replaceAll '>' (sL "&gt;") (replaceAll '<' (sL "&lt;")
    (replaceAll '"' (sL "&quot;") (replaceAll '&' (sL "&amp;") s)))

/-- The spec's reading of HTML escaping as one simultaneous pass: each
special character becomes its entity independently, so entities introduced
by the escaping are never re-escaped. -/
def escCharHtml (c : Char) : List Char :=
  if c = '&' then sL "&amp;"
  else if c = '"' then sL "&quot;"
  else if c = '<' then sL "&lt;"
  else if c = '>' then sL "&gt;"
  else [c]

/-- Single-pass escaping over a whole string (spec reading). -/
def plaintext_to_html_spec : List Char → List Char
  | [] => []
  | c :: cs => escCharHtml c ++ plaintext_to_html_spec cs

/-- Last element of a list of lines (empty line when there is none). -/
def lastD : List (List Char) → List Char
  | [] => []
  | [x] => x
  | _ :: y :: t => lastD (y :: t)

/-- The empty filesystem: nothing exists. -/
def fsEmpty : FS :=
  ⟨fun _ => false, fun _ => false, fun _ => false, fun _ => [], fun p => p⟩

/-- A filesystem holding exactly the regular file `pkg/mod.py`. -/
def fsPkgMod : FS :=
  ⟨fun p => decide (p = sL "pkg/mod.py"), fun _ => false,
   fun p => decide (p = sL "pkg/mod.py"), fun _ => [], fun p => p⟩

/-! ## Lemmas for HTML escaping -/

lemma replaceAll_append (t : Char) (r a b : List Char) :
    replaceAll t r (a ++ b) = replaceAll t r a ++ replaceAll t r b := by
  induction a with
  | nil => rfl
  | cons c cs ih =>
    by_cases h : c = t
    · simp [replaceAll, h, ih]
    · simp [replaceAll, h, ih]

lemma plaintext_to_html_cons (c : Char) (s : List Char) :
    plaintext_to_html (c :: s) = plaintext_to_html [c] ++ plaintext_to_html s := by
  have : c :: s = [c] ++ s := rfl
  rw [this]
  simp only [plaintext_to_html, replaceAll_append]

lemma plaintext_to_html_single (c : Char) :
    plaintext_to_html [c] = escCharHtml c := by
  by_cases h1 : c = '&'
  · subst h1; decide
  by_cases h2 : c = '"'
  · subst h2; decide
  by_cases h3 : c = '<'
  · subst h3; decide
  by_cases h4 : c = '>'
  · subst h4; decide
  simp [plaintext_to_html, replaceAll, escCharHtml, h1, h2, h3, h4]

/-- C7: `plaintext_to_html` escapes `&` before `<`, `>` and `"`, so the
entities it introduces are never re-escaped: the four sequential
replacements coincide with a single simultaneous per-character escape;
in particular `plaintext_to_html('<a & "b">')` is
`'&lt;a &amp; &quot;b&quot;&gt;'`. -/
theorem plaintext_to_html_single_pass :
    (∀ s : List Char, plaintext_to_html s = plaintext_to_html_spec s) ∧
    plaintext_to_html (sL "<a & \"b\">") = sL "&lt;a &amp; &quot;b&quot;&gt;" := by
  constructor
  · intro s
    induction s with
    | nil => rfl
    | cons c cs ih =>
      rw [plaintext_to_html_cons, plaintext_to_html_single, ih]
      rfl
  · decide

/-! ## Terminal controller -/

/-- C8: a `TerminalController` built on a stream whose `isatty()` is false
keeps every capability field at the empty-string class default, and its
`render` turns the template `'${BOLD}x${NORMAL}'` into exactly `'x'`. -/
theorem terminal_noninteractive (forceSimple : Bool)
    (probe : TerminalController → TerminalController)
    (objAttrs : List Char → CapResult) :
    (mkTerminalController false forceSimple probe).BOL = [] ∧
    (mkTerminalController false forceSimple probe).UP = [] ∧
    (mkTerminalController false forceSimple probe).DOWN = [] ∧
    (mkTerminalController false forceSimple probe).LEFT = [] ∧
    (mkTerminalController false forceSimple probe).RIGHT = [] ∧
    (mkTerminalController false forceSimple probe).CLEAR_EOL = [] ∧
    (mkTerminalController false forceSimple probe).CLEAR_LINE = [] ∧
    (mkTerminalController false forceSimple probe).BOLD = [] ∧
    (mkTerminalController false forceSimple probe).NORMAL = [] ∧
    (mkTerminalController false forceSimple probe).UNDERLINE = [] ∧
    (mkTerminalController false forceSimple probe).REVERSE = [] ∧
    (mkTerminalController false forceSimple probe).BLACK = [] ∧
    (mkTerminalController false forceSimple probe).BLUE = [] ∧
    (mkTerminalController false forceSimple probe).GREEN = [] ∧
    (mkTerminalController false forceSimple probe).CYAN = [] ∧
    (mkTerminalController false forceSimple probe).RED = [] ∧
    (mkTerminalController false forceSimple probe).MAGENTA = [] ∧
    (mkTerminalController false forceSimple probe).YELLOW = [] ∧
    (mkTerminalController false forceSimple probe).WHITE = [] ∧
    render (mkTerminalController false forceSimple probe) objAttrs
      (sL "$\x7bBOLD\x7dx$\x7bNORMAL\x7d") = .ok (sL "x") :=
  ⟨rfl, rfl, rfl, rfl, rfl, rfl, rfl, rfl, rfl, rfl, rfl, rfl, rfl, rfl, rfl,
   rfl, rfl, rfl, rfl, rfl⟩

/-- C2 counterexample: `render` leaves `'$$'` as `'$$'` — the callback
returns the match itself for `'$$'` (util.py line 401) — rather than
producing a single `'$'` as the claim states. -/
theorem render_dollar_dollar_cex :
    render classDefault noInheritedAttrs (sL "$$") = .ok (sL "$$") ∧
    (Except.ok (sL "$$") : Except PyErr (List Char)) ≠ .ok (sL "$") :=
  ⟨by decide, by decide⟩

lemma renderAux_name_accum (tc : TerminalController)
    (objAttrs : List Char → CapResult) (name : List Char) :
    ∀ (acc rest : List Char), name.all isWordChar = true →
    renderAux tc objAttrs (.name acc) (name ++ rest) =
      renderAux tc objAttrs (.name (name.reverse ++ acc)) rest := by
  induction name with
  | nil => intro acc rest _; simp
  | cons c n ih =>
    intro acc rest hall
    simp only [List.all_cons, Bool.and_eq_true] at hall
    obtain ⟨hc, hn⟩ := hall
    have hcr : ¬(c = rbrace) := by
      intro h; rw [h] at hc; exact absurd hc (by decide)
    have hstep : renderAux tc objAttrs (.name acc) ((c :: n) ++ rest) =
        renderAux tc objAttrs (.name (c :: acc)) (n ++ rest) := by
      simp [renderAux, hcr, hc]
    rw [hstep, ih (c :: acc) rest hn]
    simp [List.append_assoc]

/-- C2 amended: `render` substitutes `'${NAME}'` according to what
`getattr` finds — the stored string for a string capability, the class
docstring for `__doc__` (a string attribute, so substituted rather than
raised) — copies any non-`'$'` character unchanged, keeps `'$$'` as the two
characters `'$$'`, and raises on `'${NAME}'` when the attribute `NAME` is
not a string: `TypeError` for a non-string attribute such as `COLS`,
`AttributeError` for a name that is no attribute at all, such as `FOO`; it
never substitutes an empty string for an unrecognized name. -/
theorem render_equations (tc : TerminalController)
    (objAttrs : List Char → CapResult) (c : Char) (rest name : List Char)
    (hc : c ≠ '$') (hn : name ≠ []) (hw : name.all isWordChar = true)
    (hFoo : objAttrs (sL "FOO") = .missing) :
    render tc objAttrs [] = .ok [] ∧
    render tc objAttrs ('$' :: '$' :: rest) =
      (fun r => '$' :: '$' :: r) <$> render tc objAttrs rest ∧
    render tc objAttrs (c :: rest) = (c :: ·) <$> render tc objAttrs rest ∧
    render tc objAttrs ('$' :: lbrace :: (name ++ rbrace :: rest)) =
      (match getCapR tc objAttrs name with
       | .strval v => (v ++ ·) <$> render tc objAttrs rest
       | .nonstr => Except.error .typeError
       | .missing => Except.error .attributeError) ∧
    render tc objAttrs ('$' :: lbrace :: (sL "__doc__" ++ rbrace :: rest)) =
      (TCdoc ++ ·) <$> render tc objAttrs rest ∧
    render tc objAttrs ('$' :: lbrace :: (sL "COLS" ++ rbrace :: rest)) =
      Except.error .typeError ∧
    render tc objAttrs ('$' :: lbrace :: (sL "FOO" ++ rbrace :: rest)) =
      Except.error .attributeError := by
  have hgen : ∀ nm : List Char, nm ≠ [] → nm.all isWordChar = true →
      render tc objAttrs ('$' :: lbrace :: (nm ++ rbrace :: rest)) =
      (match getCapR tc objAttrs nm with
       | .strval v => (v ++ ·) <$> render tc objAttrs rest
       | .nonstr => Except.error .typeError
       | .missing => Except.error .attributeError) := by
    intro nm hnm hwm
    have h0 : render tc objAttrs ('$' :: lbrace :: (nm ++ rbrace :: rest)) =
        renderAux tc objAttrs (.name []) (nm ++ rbrace :: rest) := rfl
    rw [h0, renderAux_name_accum tc objAttrs nm [] (rbrace :: rest) hwm]
    have hne : (nm.reverse ++ []).isEmpty = false := by
      simp [List.isEmpty_iff, hnm]
    simp [renderAux, hne, List.reverse_reverse, render]
    intro h
    exact absurd h hnm
  refine ⟨rfl, rfl, ?_, hgen name hn hw, ?_, ?_, ?_⟩
  · simp [render, renderAux, hc]
  · have h5 := hgen (sL "__doc__") (by decide) (by decide)
    rw [show getCapR tc objAttrs (sL "__doc__") = .strval TCdoc from rfl] at h5
    exact h5
  · have h6 := hgen (sL "COLS") (by decide) (by decide)
    rw [show getCapR tc objAttrs (sL "COLS") = .nonstr from rfl] at h6
    exact h6
  · have h7 := hgen (sL "FOO") (by decide) (by decide)
    rw [show getCapR tc objAttrs (sL "FOO") = objAttrs (sL "FOO") from rfl,
      hFoo] at h7
    exact h7

/-- C2 amended, witness at `tc = classDefault`, the empty object-model
environment, `c = 'a'`, `name = "BOLD"`, `rest = "z"`. -/
theorem render_equations_witness :
    ('a' ≠ '$') ∧ (sL "BOLD" ≠ []) ∧ ((sL "BOLD").all isWordChar = true) ∧
    (noInheritedAttrs (sL "FOO") = .missing) ∧
    (render classDefault noInheritedAttrs [] = .ok [] ∧
     render classDefault noInheritedAttrs ('$' :: '$' :: sL "z") =
       (fun r => '$' :: '$' :: r) <$> render classDefault noInheritedAttrs (sL "z") ∧
     render classDefault noInheritedAttrs ('a' :: sL "z") =
       ('a' :: ·) <$> render classDefault noInheritedAttrs (sL "z") ∧
     render classDefault noInheritedAttrs
       ('$' :: lbrace :: (sL "BOLD" ++ rbrace :: sL "z")) =
       (match getCapR classDefault noInheritedAttrs (sL "BOLD") with
        | .strval v => (v ++ ·) <$> render classDefault noInheritedAttrs (sL "z")
        | .nonstr => Except.error .typeError
        | .missing => Except.error .attributeError) ∧
     render classDefault noInheritedAttrs
       ('$' :: lbrace :: (sL "__doc__" ++ rbrace :: sL "z")) =
       (TCdoc ++ ·) <$> render classDefault noInheritedAttrs (sL "z") ∧
     render classDefault noInheritedAttrs
       ('$' :: lbrace :: (sL "COLS" ++ rbrace :: sL "z")) =
       Except.error .typeError ∧
     render classDefault noInheritedAttrs
       ('$' :: lbrace :: (sL "FOO" ++ rbrace :: sL "z")) =
       Except.error .attributeError) :=
  ⟨by decide, by decide, by decide, by decide,
   render_equations classDefault noInheritedAttrs 'a' (sL "z") (sL "BOLD")
     (by decide) (by decide) (by decide) (by decide)⟩

/-! ## Subprocess execution -/

/-- C3 counterexample: when the child process cannot be started, the
`OSError` raised by `Popen` inside the `try` block is not caught (only
`ImportError` is), so the caller sees the original untyped `OSError` — not
the typed `RunSubprocessError` the claim promises for every failure. -/
theorem run_subprocess_start_failure_cex :
    run_subprocess (.ofList [sL "x"]) none (.startFailure 2) =
      .error (.osError 2) ∧
    (PyErr.osError 2 ≠ PyErr.runSubprocessError (sL "x failed") [] []) :=
  ⟨rfl, by decide⟩

/-- C3 amended: on the modern `subprocess` path, a zero exit status returns
the captured `(stdout, stderr)` pair; a non-zero exit status raises
`RunSubprocessError` built from `cmd[0]` and carrying both captured
streams; but a launch failure propagates the original untyped `OSError`
rather than the typed error. -/
theorem run_subprocess_paths (cmd : PyCmd) (data : Option (List Char))
    (rc : Int) (out err : List Char) (e : Nat) :
    run_subprocess cmd data (.started 0 out err) = .ok (out, err) ∧
    (rc = 0 ∨ run_subprocess cmd data (.started rc out err) =
      .error (.runSubprocessError ((cmdAsList cmd).headD [] ++ sL " failed") out err)) ∧
    run_subprocess cmd data (.startFailure e) = .error (.osError e) := by
  refine ⟨rfl, ?_, rfl⟩
  by_cases h : rc = 0
  · exact Or.inl h
  · exact Or.inr (by simp [run_subprocess, h])

/-! ## Classification predicates -/

/-- C4 counterexample: `is_pyname` applies `re.match` with no `isinstance`
guard, so the non-string input `3` raises `TypeError` instead of returning
a false result. -/
theorem is_pyname_nonstring_cex :
    is_pyname (PyVal.int 3) = .error .typeError := rfl

/-- C4 amended: `is_module_file`, `is_src_filename` and `is_package_dir`
never raise on any input (non-strings are rejected by their `isinstance`
guards and return `False`), and `is_pyname` never raises on string inputs;
only `is_pyname` on a non-string raises. -/
theorem classification_no_raise (fs : FS) (v : PyVal) (s : List Char) (n : Int) :
    isOkE (is_module_file fs v) = true ∧
    isOkE (is_src_filename fs v) = true ∧
    isOkE (is_package_dir fs v) = true ∧
    isOkE (is_pyname (.str s)) = true ∧
    is_module_file fs (.int n) = .ok false ∧
    is_src_filename fs (.int n) = .ok false ∧
    is_package_dir fs (.int n) = .ok false := by
  refine ⟨?_, ?_, ?_, rfl, rfl, rfl, rfl⟩
  · cases v <;> rfl
  · cases v <;> simp only [is_src_filename] <;> first | rfl | (split <;> rfl)
  · cases v <;> simp only [is_package_dir] <;> first | rfl | (split <;> rfl)

/-! ## Source-file resolution -/

/-- C6: for a filename whose extension is not a Python source extension,
`py_src_filename` tries `basefile + '.py'` and then `basefile + '.pyw'`
against the filesystem, returns the first that exists as a file, and when
neither exists raises a `ValueError` whose message names the filename. -/
theorem py_src_filename_fallback (fs : FS) (filename : List Char)
    (hext : ¬ PY_SRC_EXTENSIONS.contains (splitext filename).2 = true) :
    (fs.isfile ((splitext filename).1 ++ sL ".py") = true →
      py_src_filename fs filename = .ok ((splitext filename).1 ++ sL ".py")) ∧
    (fs.isfile ((splitext filename).1 ++ sL ".py") = false →
      fs.isfile ((splitext filename).1 ++ sL ".pyw") = true →
      py_src_filename fs filename = .ok ((splitext filename).1 ++ sL ".pyw")) ∧
    (fs.isfile ((splitext filename).1 ++ sL ".py") = false →
      fs.isfile ((splitext filename).1 ++ sL ".pyw") = false →
      py_src_filename fs filename = .error (.valueError (srcNotFoundMsg filename))) := by
  have hext' : (splitext filename).2 ∉ PY_SRC_EXTENSIONS := by simpa using hext
  refine ⟨?_, ?_, ?_⟩
  · intro h1; simp [py_src_filename, hext', h1]
  · intro h1 h2; simp [py_src_filename, hext', h1, h2]
  · intro h1 h2; simp [py_src_filename, hext', h1, h2]

/-- C6 witness: `py_src_filename('pkg/mod.pyc')` resolves to `pkg/mod.py`
on a filesystem where that file exists, and raises the not-found
`ValueError` on the empty filesystem. -/
theorem py_src_filename_fallback_witness :
    (¬ PY_SRC_EXTENSIONS.contains (splitext (sL "pkg/mod.pyc")).2 = true) ∧
    py_src_filename fsPkgMod (sL "pkg/mod.pyc") = .ok (sL "pkg/mod.py") ∧
    py_src_filename fsEmpty (sL "pkg/mod.pyc") =
      .error (.valueError (srcNotFoundMsg (sL "pkg/mod.pyc"))) :=
  ⟨by decide,
   by
    have h := (py_src_filename_fallback fsPkgMod (sL "pkg/mod.pyc") (by decide)).1
      (by decide)
    simpa using h,
   by
    have h := (py_src_filename_fallback fsEmpty (sL "pkg/mod.pyc") (by decide)).2.2
      (by decide) (by decide)
    exact h⟩

/-- C10: a filename that already carries a Python source extension is
returned unchanged by `py_src_filename`, for any filesystem — the
filesystem is never consulted, even when the file does not exist. -/
theorem py_src_filename_keeps_src_ext (fs : FS) (filename : List Char)
    (h : PY_SRC_EXTENSIONS.contains (splitext filename).2 = true) :
    py_src_filename fs filename = .ok filename := by
  have h' : (splitext filename).2 ∈ PY_SRC_EXTENSIONS := by simpa using h
  simp [py_src_filename, h']

/-- C10 witness: `'ghost.py'` is returned unchanged on the empty
filesystem, where no file exists at all. -/
theorem py_src_filename_keeps_src_ext_witness :
    PY_SRC_EXTENSIONS.contains (splitext (sL "ghost.py")).2 = true ∧
    py_src_filename fsEmpty (sL "ghost.py") = .ok (sL "ghost.py") :=
  ⟨by decide, py_src_filename_keeps_src_ext fsEmpty (sL "ghost.py") (by decide)⟩

/-! ## Trailing-newline discipline of wordwrap -/

lemma dropWhile_dropWhile (p : Char → Bool) (l : List Char) :
    (l.dropWhile p).dropWhile p = l.dropWhile p := by
  induction l with
  | nil => rfl
  | cons c cs ih =>
    by_cases h : p c = true
    · simp [List.dropWhile_cons, h, ih]
    · simp [List.dropWhile_cons, h]

lemma pyRstrip_append_nl (l : List Char) : pyRstrip (l ++ ['\n']) = pyRstrip l := by
  have hnl : pyIsSpace '\n' = true := rfl
  simp [pyRstrip, List.reverse_append, List.dropWhile_cons, hnl]

lemma pyRstrip_idem (l : List Char) : pyRstrip (pyRstrip l) = pyRstrip l := by
  simp [pyRstrip, List.reverse_reverse, dropWhile_dropWhile]

lemma pyRstrip_eq_nil (l : List Char) (h : ∀ c ∈ l, pyIsSpace c = true) :
    pyRstrip l = [] := by
  have : l.reverse.dropWhile pyIsSpace = [] := by
    rw [List.dropWhile_eq_nil_iff]
    intro x hx
    exact h x (List.mem_reverse.mp hx)
  simp [pyRstrip, this]

/-- C9: the output of `wordwrap` always ends in exactly one newline with no
other trailing whitespace before it (stripping trailing whitespace from the
output removes just that final newline), and the empty input produces the
single-newline string. -/
theorem wordwrap_trailing_newline (s : List Char) (indent right startindex : Nat) :
    wordwrap s indent right startindex =
      pyRstrip (wordwrap s indent right startindex) ++ ['\n'] ∧
    wordwrap [] indent right startindex = ['\n'] := by
  constructor
  · rw [wordwrap, pyRstrip_append_nl, pyRstrip_idem]
  · rw [wordwrap]
    have hs : splitWs (expandtabs []) = [[]] := rfl
    rw [hs]
    have hmem : ∀ c ∈ List.replicate (indent - startindex) ' ' ++
        wwLoop indent right [[]] (max indent startindex), pyIsSpace c = true := by
      intro c hc
      rcases List.mem_append.mp hc with h | h
      · rw [List.eq_of_mem_replicate h]; rfl
      · simp only [wwLoop, headNotWs, List.append_nil, List.length_nil] at h
        split at h
        · simp only [if_true] at h
          rcases List.mem_cons.mp h with h1 | h1
          · rw [h1]; rfl
          · rcases List.mem_append.mp h1 with h2 | h2
            · rw [List.eq_of_mem_replicate h2]; rfl
            · exact absurd h2 (List.not_mem_nil c)
        · exact absurd h (List.not_mem_nil c)
    rw [pyRstrip_eq_nil _ hmem]
    rfl

/-! ## Structure of linesOf -/

lemma consTok_ne_nil (c : Char) (r : List (List Char)) : consTok c r ≠ [] := by
  cases r <;> simp [consTok]

lemma linesOf_ne_nil (l : List Char) : linesOf l ≠ [] := by
  cases l with
  | nil => simp [linesOf]
  | cons c cs =>
    by_cases h : c = '\n'
    · simp [linesOf, h]
    · simp only [linesOf, h, if_false]
      exact consTok_ne_nil _ _

lemma noNl_linesOf (l : List Char) (h : '\n' ∉ l) : linesOf l = [l] := by
  induction l with
  | nil => rfl
  | cons c cs ih =>
    have hc : ¬ c = '\n' := fun e => h (e ▸ List.mem_cons_self c cs)
    have hcs : '\n' ∉ cs := fun e => h (List.mem_cons_of_mem c e)
    simp [linesOf, hc, ih hcs, consTok]

lemma linesOf_break (P X : List Char) (h : '\n' ∉ P) :
    linesOf (P ++ '\n' :: X) = P :: linesOf X := by
  induction P with
  | nil => simp [linesOf]
  | cons c cs ih =>
    have hc : ¬ c = '\n' := fun e => h (e ▸ List.mem_cons_self c cs)
    have hcs : '\n' ∉ cs := fun e => h (List.mem_cons_of_mem c e)
    rw [show (c :: cs) ++ '\n' :: X = c :: (cs ++ '\n' :: X) from rfl]
    simp only [linesOf, hc, if_false]
    rw [ih hcs]
    rfl

lemma lastD_dropLast (L : List (List Char)) (h : L ≠ []) :
    L.dropLast ++ [lastD L] = L := by
  induction L with
  | nil => exact absurd rfl h
  | cons x xs ih =>
    cases xs with
    | nil => rfl
    | cons y t =>
      rw [show lastD (x :: y :: t) = lastD (y :: t) from rfl]
      rw [show (x :: y :: t).dropLast = x :: (y :: t).dropLast from rfl]
      rw [show (x :: (y :: t).dropLast) ++ [lastD (y :: t)] =
        x :: ((y :: t).dropLast ++ [lastD (y :: t)]) from rfl]
      rw [ih (by simp)]

lemma linesOf_append (u w : List Char) :
    linesOf (u ++ w) = (linesOf u).dropLast ++
      (lastD (linesOf u) ++ (linesOf w).headD []) :: (linesOf w).tail := by
  induction u with
  | nil =>
    cases hw : linesOf w with
    | nil => exact absurd hw (linesOf_ne_nil w)
    | cons h t => simp [linesOf, lastD, hw]
  | cons c cs ih =>
    cases hcs : linesOf cs with
    | nil => exact absurd hcs (linesOf_ne_nil cs)
    | cons h2 t2 =>
      by_cases hc : c = '\n'
      · subst hc
        rw [show ('\n' :: cs) ++ w = '\n' :: (cs ++ w) from rfl]
        rw [show linesOf ('\n' :: (cs ++ w)) = [] :: linesOf (cs ++ w) by simp [linesOf]]
        rw [ih]
        rw [show linesOf ('\n' :: cs) = [] :: linesOf cs by simp [linesOf], hcs]
        rw [show ([] :: h2 :: t2).dropLast = [] :: (h2 :: t2).dropLast from rfl]
        rw [show lastD ([] :: h2 :: t2) = lastD (h2 :: t2) from rfl]
        rfl
      · rw [show (c :: cs) ++ w = c :: (cs ++ w) from rfl]
        rw [show linesOf (c :: (cs ++ w)) = consTok c (linesOf (cs ++ w)) by
          simp [linesOf, hc]]
        rw [ih, hcs]
        rw [show linesOf (c :: cs) = consTok c (linesOf cs) by simp [linesOf, hc], hcs]
        cases t2 with
        | nil => simp [consTok, lastD]
        | cons y t3 =>
          rw [show (h2 :: y :: t3).dropLast = h2 :: (y :: t3).dropLast from rfl]
          rw [show lastD (h2 :: y :: t3) = lastD (y :: t3) from rfl]
          rw [show consTok c (h2 :: y :: t3) = (c :: h2) :: y :: t3 from rfl]
          rw [show ((c :: h2) :: y :: t3).dropLast = (c :: h2) :: (y :: t3).dropLast from rfl]
          rw [show lastD ((c :: h2) :: y :: t3) = lastD (y :: t3) from rfl]
          rfl

lemma linesOf_append_nl (x : List Char) :
    linesOf (x ++ ['\n']) = linesOf x ++ [[]] := by
  induction x with
  | nil => rfl
  | cons c cs ih =>
    by_cases hc : c = '\n'
    · subst hc
      rw [show ('\n' :: cs) ++ ['\n'] = '\n' :: (cs ++ ['\n']) from rfl]
      simp [linesOf, ih]
    · cases hcs : linesOf cs with
      | nil => exact absurd hcs (linesOf_ne_nil cs)
      | cons h t =>
        rw [show (c :: cs) ++ ['\n'] = c :: (cs ++ ['\n']) from rfl]
        simp only [linesOf, hc, if_false]
        rw [ih, hcs]
        rfl

lemma linesOf_of_append (u w : List Char) (x : List Char) (hx : x ∈ linesOf u) :
    ∃ y ∈ linesOf (u ++ w), ∃ v, x ++ v = y := by
  rw [linesOf_append u w]
  rw [← lastD_dropLast (linesOf u) (linesOf_ne_nil u)] at hx
  rcases List.mem_append.mp hx with h | h
  · exact ⟨x, List.mem_append_left _ h, [], by simp⟩
  · have hxl : x = lastD (linesOf u) := by simpa using h
    refine ⟨lastD (linesOf u) ++ (linesOf w).headD [], ?_, (linesOf w).headD [], by rw [hxl]⟩
    exact List.mem_append_right _ (List.mem_cons_self _ _)

lemma pyRstrip_decomp (l : List Char) : ∃ v, pyRstrip l ++ v = l := by
  refine ⟨(l.reverse.takeWhile pyIsSpace).reverse, ?_⟩
  rw [pyRstrip, ← List.reverse_append, List.takeWhile_append_dropWhile,
    List.reverse_reverse]

/-! ## Tokens produced by splitWs -/

lemma spaceMerge_ne_nil (r : List (List Char)) : spaceMerge r ≠ [] := by
  cases r with
  | nil => simp [spaceMerge]
  | cons x rs =>
    cases rs with
    | nil => simp [spaceMerge]
    | cons y t =>
      cases x with
      | nil =>
        cases y with
        | nil => simp [spaceMerge]
        | cons c sep => by_cases hc : c = ' ' <;> simp [spaceMerge, hc]
      | cons a x' => simp [spaceMerge]

lemma splitWs_ne_nil (l : List Char) : splitWs l ≠ [] := by
  cases l with
  | nil => simp [splitWs]
  | cons c cs =>
    by_cases h1 : c = '\n'
    · simp [splitWs, h1]
    · by_cases h2 : c = ' '
      · simp only [splitWs, h1, h2, if_false, if_true]
        exact spaceMerge_ne_nil _
      · simp only [splitWs, h1, h2, if_false]
        exact consTok_ne_nil _ _

lemma spaceMerge_headD (r : List (List Char)) : (spaceMerge r).headD [] = [] := by
  cases r with
  | nil => simp [spaceMerge]
  | cons x rs =>
    cases rs with
    | nil => simp [spaceMerge]
    | cons y t =>
      cases x with
      | nil =>
        cases y with
        | nil => simp [spaceMerge]
        | cons c sep => by_cases hc : c = ' ' <;> simp [spaceMerge, hc]
      | cons a x' => simp [spaceMerge]

lemma splitWs_headD_no_nl (l : List Char) : '\n' ∉ (splitWs l).headD [] := by
  induction l with
  | nil => simp [splitWs]
  | cons c cs ih =>
    by_cases h1 : c = '\n'
    · simp [splitWs, h1]
    · by_cases h2 : c = ' '
      · rw [show splitWs (c :: cs) = spaceMerge (splitWs cs) by simp [splitWs, h1, h2]]
        rw [spaceMerge_headD]
        simp
      · rw [show splitWs (c :: cs) = consTok c (splitWs cs) by simp [splitWs, h1, h2]]
        cases hsw : splitWs cs with
        | nil => exact absurd hsw (splitWs_ne_nil cs)
        | cons h t =>
          rw [hsw] at ih
          simp only [consTok, List.headD_cons]
          intro hm
          rcases List.mem_cons.mp hm with h3 | h3
          · exact h1 h3.symm
          · exact ih (by simpa using h3)

lemma spaceMerge_good (r : List (List Char))
    (hr : ∀ x ∈ r, x = ['\n'] ∨ '\n' ∉ x) :
    ∀ x ∈ spaceMerge r, x = ['\n'] ∨ '\n' ∉ x := by
  intro x hx
  cases r with
  | nil =>
    rw [show spaceMerge [] = [[], [' ']] from rfl] at hx
    rcases List.mem_cons.mp hx with rfl | hx2
    · right; simp
    · have : x = [' '] := by simpa using hx2
      subst this; right; simp
  | cons z rs =>
    cases rs with
    | nil =>
      rw [show spaceMerge [z] = [] :: [' '] :: [z] from by cases z <;> rfl] at hx
      rcases List.mem_cons.mp hx with rfl | hx2
      · right; simp
      · rcases List.mem_cons.mp hx2 with rfl | hx3
        · right; simp
        · exact hr x (by simpa using hx3)
    | cons y t =>
      cases z with
      | cons a z' =>
        rw [show spaceMerge ((a :: z') :: y :: t) = [] :: [' '] :: (a :: z') :: y :: t
          from rfl] at hx
        rcases List.mem_cons.mp hx with rfl | hx2
        · right; simp
        · rcases List.mem_cons.mp hx2 with rfl | hx3
          · right; simp
          · exact hr x hx3
      | nil =>
        cases y with
        | nil =>
          rw [show spaceMerge ([] :: [] :: t) = [] :: [' '] :: [] :: [] :: t
            from rfl] at hx
          rcases List.mem_cons.mp hx with rfl | hx2
          · right; simp
          · rcases List.mem_cons.mp hx2 with rfl | hx3
            · right; simp
            · exact hr x hx3
        | cons c sep =>
          by_cases hc : c = ' '
          · rw [show spaceMerge ([] :: (c :: sep) :: t) =
              [] :: (' ' :: c :: sep) :: t by simp [spaceMerge, hc]] at hx
            rcases List.mem_cons.mp hx with rfl | hx2
            · right; simp
            · rcases List.mem_cons.mp hx2 with rfl | hx3
              · right
                intro hm
                rcases List.mem_cons.mp hm with h1 | h1
                · exact absurd h1.symm (by decide)
                · rcases hr (c :: sep) (by simp) with h2 | h2
                  · rw [hc] at h2
                    exact absurd h2 (by simp)
                  · exact h2 h1
              · exact hr x (List.mem_cons_of_mem _ (List.mem_cons_of_mem _ hx3))
          · rw [show spaceMerge ([] :: (c :: sep) :: t) =
              [] :: [' '] :: [] :: (c :: sep) :: t by simp [spaceMerge, hc]] at hx
            rcases List.mem_cons.mp hx with rfl | hx2
            · right; simp
            · rcases List.mem_cons.mp hx2 with rfl | hx3
              · right; simp
              · exact hr x hx3

lemma splitWs_tokens (l : List Char) :
    ∀ c ∈ splitWs l, c = ['\n'] ∨ '\n' ∉ c := by
  induction l with
  | nil =>
    intro c hc
    have : c = [] := by simpa [splitWs] using hc
    subst this; right; simp
  | cons a cs ih =>
    intro c hc
    by_cases ha : a = '\n'
    · rw [show splitWs (a :: cs) = [] :: ['\n'] :: splitWs cs by simp [splitWs, ha]] at hc
      rcases List.mem_cons.mp hc with rfl | hc2
      · right; simp
      · rcases List.mem_cons.mp hc2 with rfl | hc3
        · left; rfl
        · exact ih c hc3
    · by_cases hs : a = ' '
      · rw [show splitWs (a :: cs) = spaceMerge (splitWs cs) by simp [splitWs, ha, hs]] at hc
        exact spaceMerge_good (splitWs cs) ih c hc
      · rw [show splitWs (a :: cs) = consTok a (splitWs cs) by simp [splitWs, ha, hs]] at hc
        cases hsw : splitWs cs with
        | nil => exact absurd hsw (splitWs_ne_nil cs)
        | cons h t =>
          rw [hsw] at hc
          rcases List.mem_cons.mp hc with rfl | hc2
          · right
            intro hm
            rcases List.mem_cons.mp hm with h3 | h3
            · exact ha h3.symm
            · have hh : '\n' ∉ h := by
                have := splitWs_headD_no_nl cs
                rw [hsw] at this
                simpa using this
              exact hh h3
          · exact ih c (by rw [hsw]; exact List.mem_cons_of_mem _ hc2)

/-! ## Line-width invariant of the wordwrap loop -/

lemma isPre_iff (a : List Char) : ∀ b, isPre a b = true ↔ ∃ r, a ++ r = b := by
  induction a with
  | nil => intro b; simp [isPre]
  | cons x l ih =>
    intro b
    cases b with
    | nil =>
      simp only [isPre]
      constructor
      · intro h; exact absurd h (by simp)
      · rintro ⟨r, h⟩; exact absurd h (by simp)
    | cons y m =>
      rw [show isPre (x :: l) (y :: m) = ((x == y) && isPre l m) from rfl]
      rw [Bool.and_eq_true, beq_iff_eq, ih m]
      constructor
      · rintro ⟨rfl, r, rfl⟩; exact ⟨r, rfl⟩
      · rintro ⟨r, h⟩
        injection h with h1 h2
        exact ⟨h1, r, h2⟩

lemma wwLoop_lines (indent right : Nat) (hir : indent < right)
    (CS : List (List Char)) (hCS : ∀ c ∈ CS, c = ['\n'] ∨ '\n' ∉ c) :
    ∀ cs : List (List Char), (∀ c ∈ cs, c ∈ CS) →
    ∀ P : List Char, ∀ ci : Nat, P.length = ci → indent ≤ ci → '\n' ∉ P →
    (ci ≤ right ∨ ∃ c ∈ CS, P = List.replicate indent ' ' ++ c) →
    ∀ line ∈ linesOf (P ++ wwLoop indent right cs ci),
      line.length ≤ right ∨
      ∃ c ∈ CS, ∃ r, List.replicate indent ' ' ++ c = line ++ r := by
  intro cs
  induction cs with
  | nil =>
    intro _ P ci hlen hind hnl hgood line hline
    rw [show wwLoop indent right [] ci = [] from rfl, List.append_nil] at hline
    rw [noNl_linesOf P hnl] at hline
    have hlp : line = P := by simpa using hline
    subst hlp
    rcases hgood with h | ⟨c, hc, rfl⟩
    · exact Or.inl (hlen ▸ h)
    · exact Or.inr ⟨c, hc, [], by simp⟩
  | cons chunk rest ih =>
    intro hsub P ci hlen hind hnl hgood line hline
    have hchunkCS : chunk ∈ CS := hsub chunk (List.mem_cons_self _ _)
    have hrest : ∀ c ∈ rest, c ∈ CS := fun c hc => hsub c (List.mem_cons_of_mem _ hc)
    have hunfold : wwLoop indent right (chunk :: rest) ci =
        if (right < ci + chunk.length ∧ 0 < ci) ∨ chunk = ['\n'] then
          '\n' :: (List.replicate indent ' ' ++
            (if headNotWs chunk then
              chunk ++ wwLoop indent right rest (indent + chunk.length)
             else wwLoop indent right rest indent))
        else chunk ++ wwLoop indent right rest (ci + chunk.length) := rfl
    by_cases hcond : (right < ci + chunk.length ∧ 0 < ci) ∨ chunk = ['\n']
    · rw [hunfold, if_pos hcond] at hline
      rw [linesOf_break P _ hnl] at hline
      rcases List.mem_cons.mp hline with rfl | hline2
      · rcases hgood with h | ⟨c, hc, rfl⟩
        · exact Or.inl (hlen ▸ h)
        · exact Or.inr ⟨c, hc, [], by simp⟩
      · by_cases hh : headNotWs chunk = true
        · rw [if_pos hh, ← List.append_assoc] at hline2
          have hcnl : '\n' ∉ chunk := by
            rcases hCS chunk hchunkCS with h | h
            · rw [h] at hh; exact absurd hh (by decide)
            · exact h
          refine ih hrest (List.replicate indent ' ' ++ chunk) (indent + chunk.length)
            (by simp) (Nat.le_add_right _ _) ?_ (Or.inr ⟨chunk, hchunkCS, rfl⟩) line hline2
          intro hmem
          rcases List.mem_append.mp hmem with h | h
          · exact absurd (List.eq_of_mem_replicate h) (by decide)
          · exact hcnl h
        · rw [if_neg hh] at hline2
          refine ih hrest (List.replicate indent ' ') indent (by simp) (Nat.le_refl _)
            ?_ (Or.inl (Nat.le_of_lt hir)) line hline2
          intro hmem
          exact absurd (List.eq_of_mem_replicate hmem) (by decide)
    · rw [hunfold, if_neg hcond, ← List.append_assoc] at hline
      push_neg at hcond
      obtain ⟨hnotover, hnotnl⟩ := hcond
      have hcnl : '\n' ∉ chunk := by
        rcases hCS chunk hchunkCS with h | h
        · exact absurd h hnotnl
        · exact h
      have hPc : '\n' ∉ P ++ chunk := by
        intro hmem
        rcases List.mem_append.mp hmem with h | h
        · exact hnl h
        · exact hcnl h
      rcases Nat.lt_or_ge right (ci + chunk.length) with hlt | hle
      · have hci0 : ci = 0 := Nat.le_zero.mp (hnotover hlt)
        have hind0 : indent = 0 := Nat.le_zero.mp (hci0 ▸ hind)
        have hP0 : P = [] := List.eq_nil_of_length_eq_zero (by rw [hlen, hci0])
        refine ih hrest (P ++ chunk) (ci + chunk.length) (by simp [hlen])
          (le_trans hind (Nat.le_add_right _ _)) hPc ?_ line hline
        right
        exact ⟨chunk, hchunkCS, by rw [hP0, hind0]; simp⟩
      · exact ih hrest (P ++ chunk) (ci + chunk.length) (by simp [hlen])
          (le_trans hind (Nat.le_add_right _ _)) hPc (Or.inl hle) line hline

/-- C1: with `indent < right` and `startindex = 0`, every line of the string
returned by `wordwrap` either has length at most `right` or consists of the
indentation followed by a single unsplittable chunk of the whitespace split
(possibly with trailing whitespace stripped on the final line, expressed as
an initial segment). -/
theorem wordwrap_right_margin (s : List Char) (indent right : Nat)
    (h : indent < right) :
    (linesOf (wordwrap s indent right 0)).all (fun line =>
      decide (line.length ≤ right) ||
      (splitWs (expandtabs s)).any (fun c =>
        isPre line (List.replicate indent ' ' ++ c))) = true := by
  rw [List.all_eq_true]
  intro line hline
  rw [wordwrap, Nat.sub_zero, Nat.max_zero] at hline
  rw [linesOf_append_nl] at hline
  have hJlines : ∀ l ∈ linesOf (List.replicate indent ' ' ++
      wwLoop indent right (splitWs (expandtabs s)) indent),
      l.length ≤ right ∨ ∃ c ∈ splitWs (expandtabs s), ∃ r,
        List.replicate indent ' ' ++ c = l ++ r := by
    intro l hl
    refine wwLoop_lines indent right h (splitWs (expandtabs s)) (splitWs_tokens _)
      (splitWs (expandtabs s)) (fun c hc => hc) (List.replicate indent ' ') indent
      (by simp) (Nat.le_refl _) ?_ (Or.inl (Nat.le_of_lt h)) l hl
    intro hmem
    exact absurd (List.eq_of_mem_replicate hmem) (by decide)
  have hgoal : line.length ≤ right ∨ ∃ c ∈ splitWs (expandtabs s), ∃ r,
      List.replicate indent ' ' ++ c = line ++ r := by
    rcases List.mem_append.mp hline with hl | hl
    · obtain ⟨v, hv⟩ := pyRstrip_decomp (List.replicate indent ' ' ++
        wwLoop indent right (splitWs (expandtabs s)) indent)
      obtain ⟨y, hy, w, hw⟩ := linesOf_of_append _ v line hl
      rw [hv] at hy
      rcases hJlines y hy with h1 | ⟨c, hc, r, hr⟩
      · left
        calc line.length ≤ y.length := by rw [← hw]; simp
          _ ≤ right := h1
      · right
        exact ⟨c, hc, w ++ r, by rw [hr, ← hw, List.append_assoc]⟩
    · have : line = [] := by simpa using hl
      subst this
      exact Or.inl (Nat.zero_le _)
  rcases hgoal with h1 | ⟨c, hc, r, hr⟩
  · rw [Bool.or_eq_true]
    left
    exact decide_eq_true h1
  · rw [Bool.or_eq_true]
    right
    rw [List.any_eq_true]
    exact ⟨c, hc, (isPre_iff line _).mpr ⟨r, hr.symm⟩⟩

/-- C1 witness at `s = "it is a fine day"`, `indent = 1`, `right = 6`. -/
theorem wordwrap_right_margin_witness :
    1 < 6 ∧
    (linesOf (wordwrap (sL "it is a fine day") 1 6 0)).all (fun line =>
      decide (line.length ≤ 6) ||
      (splitWs (expandtabs (sL "it is a fine day"))).any (fun c =>
        isPre line (List.replicate 1 ' ' ++ c))) = true :=
  ⟨by decide, wordwrap_right_margin (sL "it is a fine day") 1 6 (by decide)⟩

/-! ## Idempotence of wordwrap on well-wrapped text -/

lemma consTok_join (c : Char) (r : List (List Char)) :
    (consTok c r).flatten = c :: r.flatten := by
  cases r <;> simp [consTok]

lemma spaceMerge_join (r : List (List Char)) :
    (spaceMerge r).flatten = ' ' :: r.flatten := by
  cases r with
  | nil => simp [spaceMerge]
  | cons x rs =>
    cases rs with
    | nil => cases x <;> simp [spaceMerge]
    | cons y t =>
      cases x with
      | cons a x' => simp [spaceMerge]
      | nil =>
        cases y with
        | nil => simp [spaceMerge]
        | cons c sep => by_cases hc : c = ' ' <;> simp [spaceMerge, hc]

lemma splitWs_join (l : List Char) : (splitWs l).flatten = l := by
  induction l with
  | nil => simp [splitWs]
  | cons c cs ih =>
    by_cases h1 : c = '\n'
    · rw [show splitWs (c :: cs) = [] :: ['\n'] :: splitWs cs by simp [splitWs, h1]]
      simp [ih, h1]
    · by_cases h2 : c = ' '
      · rw [show splitWs (c :: cs) = spaceMerge (splitWs cs) by simp [splitWs, h1, h2]]
        rw [spaceMerge_join, ih, h2]
      · rw [show splitWs (c :: cs) = consTok c (splitWs cs) by simp [splitWs, h1, h2]]
        rw [consTok_join, ih]

lemma consTok_append (c : Char) (S Z : List (List Char)) (hS : S ≠ []) :
    consTok c (S ++ Z) = consTok c S ++ Z := by
  cases S with
  | nil => exact absurd rfl hS
  | cons h t => rfl

lemma spaceMerge_append_nlsep (S T : List (List Char)) :
    spaceMerge (S ++ ['\n'] :: T) = spaceMerge S ++ ['\n'] :: T := by
  cases S with
  | nil => rfl
  | cons x S' =>
    cases x with
    | cons a x' => rfl
    | nil =>
      cases S' with
      | nil => rfl
      | cons y' S'' =>
        cases y' with
        | nil => rfl
        | cons c sep => by_cases hc : c = ' ' <;> simp [spaceMerge, hc]

lemma splitWs_append_nl (a b : List Char) (ha : '\n' ∉ a) :
    splitWs (a ++ '\n' :: b) = splitWs a ++ ['\n'] :: splitWs b := by
  induction a with
  | nil => simp [splitWs]
  | cons c cs ih =>
    have hc : ¬ c = '\n' := fun e => ha (e ▸ List.mem_cons_self c cs)
    have hcs : '\n' ∉ cs := fun e => ha (List.mem_cons_of_mem c e)
    by_cases hs : c = ' '
    · rw [show (c :: cs) ++ '\n' :: b = c :: (cs ++ '\n' :: b) from rfl]
      rw [show splitWs (c :: (cs ++ '\n' :: b)) = spaceMerge (splitWs (cs ++ '\n' :: b)) by
        simp [splitWs, hc, hs]]
      rw [ih hcs, spaceMerge_append_nlsep]
      rw [show splitWs (c :: cs) = spaceMerge (splitWs cs) by simp [splitWs, hc, hs]]
    · rw [show (c :: cs) ++ '\n' :: b = c :: (cs ++ '\n' :: b) from rfl]
      rw [show splitWs (c :: (cs ++ '\n' :: b)) = consTok c (splitWs (cs ++ '\n' :: b)) by
        simp [splitWs, hc, hs]]
      rw [ih hcs, consTok_append c _ _ (splitWs_ne_nil cs)]
      rw [show splitWs (c :: cs) = consTok c (splitWs cs) by simp [splitWs, hc, hs]]

lemma wwLoop_append_fit (right : Nat) :
    ∀ (S more : List (List Char)) (ci : Nat),
    (∀ tok ∈ S, tok ≠ ['\n']) → ci + S.flatten.length ≤ right →
    wwLoop 0 right (S ++ more) ci = S.flatten ++ wwLoop 0 right more (ci + S.flatten.length) := by
  intro S
  induction S with
  | nil => intro more ci _ _; simp
  | cons tok S' ih =>
    intro more ci htok hfit
    simp only [List.flatten_cons, List.length_append] at hfit
    have h1 : tok ≠ ['\n'] := htok tok (List.mem_cons_self _ _)
    have hcond : ¬ ((right < ci + tok.length ∧ 0 < ci) ∨ tok = ['\n']) := by
      rintro (⟨hlt, _⟩ | h2)
      · omega
      · exact h1 h2
    have hunfold : wwLoop 0 right (tok :: (S' ++ more)) ci =
        if (right < ci + tok.length ∧ 0 < ci) ∨ tok = ['\n'] then
          '\n' :: (List.replicate 0 ' ' ++
            (if headNotWs tok then
              tok ++ wwLoop 0 right (S' ++ more) (0 + tok.length)
             else wwLoop 0 right (S' ++ more) 0))
        else tok ++ wwLoop 0 right (S' ++ more) (ci + tok.length) := rfl
    rw [show (tok :: S') ++ more = tok :: (S' ++ more) from rfl]
    rw [hunfold, if_neg hcond]
    rw [ih more (ci + tok.length)
      (fun t ht => htok t (List.mem_cons_of_mem _ ht)) (by omega)]
    simp only [List.flatten_cons, List.length_append, List.append_assoc, Nat.add_assoc]

lemma exists_first_nl (t : List Char) (h : '\n' ∈ t) :
    ∃ a b, t = a ++ '\n' :: b ∧ '\n' ∉ a := by
  induction t with
  | nil => simp at h
  | cons c cs ih =>
    by_cases hc : c = '\n'
    · exact ⟨[], cs, by rw [hc]; rfl, by simp⟩
    · have h2 : '\n' ∈ cs := by
        rcases List.mem_cons.mp h with h1 | h1
        · exact absurd h1.symm hc
        · exact h1
      obtain ⟨a, b, rfl, hna⟩ := ih h2
      refine ⟨c :: a, b, rfl, ?_⟩
      intro hm
      rcases List.mem_cons.mp hm with h1 | h1
      · exact hc h1.symm
      · exact hna h1

lemma no_nl_tok (u : List Char) (hu : '\n' ∉ u) :
    ∀ tok ∈ splitWs u, tok ≠ ['\n'] := by
  intro tok htok heq
  apply hu
  rw [← splitWs_join u]
  rw [List.mem_flatten]
  exact ⟨tok, htok, by rw [heq]; exact List.mem_cons_self _ _⟩

lemma wwLoop_id (right : Nat) :
    ∀ n t, t.length ≤ n → (∀ l ∈ linesOf t, l.length ≤ right) →
    wwLoop 0 right (splitWs t) 0 = t := by
  intro n
  induction n with
  | zero =>
    intro t ht _
    have h0 : t = [] := List.eq_nil_of_length_eq_zero (Nat.le_zero.mp ht)
    subst h0
    have := wwLoop_append_fit right [[]] [] 0 (by simp) (by simp)
    simpa using this
  | succ n ihn =>
    intro t ht hlines
    by_cases hnl : '\n' ∈ t
    · obtain ⟨a, b, rfl, hna⟩ := exists_first_nl t hnl
      rw [splitWs_append_nl a b hna]
      have hja : (splitWs a).flatten = a := splitWs_join a
      have hlen_a : a.length ≤ right := by
        apply hlines
        rw [linesOf_break a b hna]
        exact List.mem_cons_self _ _
      rw [wwLoop_append_fit right (splitWs a) (['\n'] :: splitWs b) 0
        (no_nl_tok a hna) (by rw [hja]; omega)]
      rw [hja]
      have hunfold : wwLoop 0 right (['\n'] :: splitWs b) (0 + a.length) =
          if (right < (0 + a.length) + (['\n'] : List Char).length ∧
              0 < 0 + a.length) ∨ (['\n'] : List Char) = ['\n'] then
            '\n' :: (List.replicate 0 ' ' ++
              (if headNotWs ['\n'] then
                ['\n'] ++ wwLoop 0 right (splitWs b) (0 + (['\n'] : List Char).length)
               else wwLoop 0 right (splitWs b) 0))
          else ['\n'] ++ wwLoop 0 right (splitWs b)
            ((0 + a.length) + (['\n'] : List Char).length) := rfl
      rw [hunfold, if_pos (Or.inr rfl)]
      rw [show (headNotWs ['\n'] : Bool) = false from rfl]
      rw [if_neg (by simp)]
      have hblen : b.length ≤ n := by
        simp only [List.length_append, List.length_cons] at ht
        omega
      have hblines : ∀ l ∈ linesOf b, l.length ≤ right := by
        intro l hl
        apply hlines
        rw [linesOf_break a b hna]
        exact List.mem_cons_of_mem _ hl
      rw [ihn b hblen hblines]
      simp
    · have hlen : t.length ≤ right := by
        apply hlines
        rw [noNl_linesOf t hnl]
        exact List.mem_cons_self _ _
      have := wwLoop_append_fit right (splitWs t) [] 0 (no_nl_tok t hnl)
        (by rw [splitWs_join]; omega)
      rw [List.append_nil] at this
      rw [this, splitWs_join]
      simp
      rfl

lemma expandtabs_no_tab (l : List Char) (h : '\t' ∉ l) :
    ∀ col, expandtabsAux l col = l := by
  induction l with
  | nil => intro col; rfl
  | cons c cs ih =>
    intro col
    have hc : ¬ c = '\t' := fun e => h (e ▸ List.mem_cons_self c cs)
    have hcs : '\t' ∉ cs := fun e => h (List.mem_cons_of_mem c e)
    by_cases h2 : c = '\n' ∨ c = '\r'
    · simp [expandtabsAux, hc, h2, ih hcs]
    · simp [expandtabsAux, hc, h2, ih hcs]

/-- C5 counterexample: `"  aaa \n  bbb\n"` is exactly the output of
`wordwrap("aaa bbb", indent=2, right=6)` — correctly wrapped text for these
margins, every line within the right margin, newlines only at line
boundaries — yet rewrapping it with the same parameters changes it (the
indentation of each line is re-read as ordinary space chunks and
re-indented). -/
theorem wordwrap_not_idempotent_cex :
    wordwrap (sL "aaa bbb") 2 6 0 = sL "  aaa \n  bbb\n" ∧
    (linesOf (sL "  aaa \n  bbb\n")).all (fun l => decide (l.length ≤ 6)) = true ∧
    wordwrap (sL "  aaa \n  bbb\n") 2 6 0 ≠ sL "  aaa \n  bbb\n" :=
  ⟨by decide, by decide, by decide⟩

/-- C5 amended: wordwrap is idempotent at `indent = 0`, `startindex = 0` on
well-wrapped text: any tab-free text that ends in exactly one newline with
no other trailing whitespace and whose every line fits in the right margin
is returned unchanged.  (For positive `indent` rewrapping re-indents
already-indented lines and the result differs.) -/
theorem wordwrap_idem (t : List Char) (right : Nat)
    (h1 : '\t' ∉ t) (h2 : t = pyRstrip t ++ ['\n'])
    (h3 : (linesOf t).all (fun l => decide (l.length ≤ right)) = true) :
    wordwrap t 0 right 0 = t := by
  have h3' : ∀ l ∈ linesOf t, l.length ≤ right := by
    intro l hl
    exact of_decide_eq_true (List.all_eq_true.mp h3 l hl)
  rw [wordwrap]
  rw [show expandtabs t = t from expandtabs_no_tab t h1 0]
  rw [Nat.sub_zero, Nat.max_self, List.replicate_zero, List.nil_append]
  rw [wwLoop_id right t.length t (Nat.le_refl _) h3']
  exact h2.symm

/-- C5 amended, witness at `t = "ab\n"`, `right = 5`. -/
theorem wordwrap_idem_witness :
    ('\t' ∉ sL "ab\n") ∧ (sL "ab\n" = pyRstrip (sL "ab\n") ++ ['\n']) ∧
    ((linesOf (sL "ab\n")).all (fun l => decide (l.length ≤ 5)) = true) ∧
    wordwrap (sL "ab\n") 0 5 0 = sL "ab\n" :=
  ⟨by decide, by decide, by decide,
   wordwrap_idem (sL "ab\n") 5 (by decide) (by decide) (by decide)⟩
